import Mathlib

/-!
Verification of `drift-linalg` (`src/lib.rs`): a Neumaier-compensated
3-vector accumulator with a bit-exact byte codec.

Modelling choices:
* An `f64` is embedded as its 64-bit IEEE-754 pattern, a `Nat` below `2^64`.
  Arithmetic (`fadd`, `fmul`, ...) decodes the pattern, computes the exact
  rational result, and rounds to nearest-even binary64, mirroring IEEE-754
  semantics.  The two zero patterns are distinguished at the bit level; NaN
  results use the canonical quiet-NaN pattern.
* Byte buffers are `List Nat` of byte values; `to_le_bytes` /
  `from_le_bytes` are modelled byte-for-byte after the Rust code.
* The `drift_kernel::Neumaier` scalar accumulator is a dependency whose
  source is not part of this repository; it is modelled from the spec
  (section 4.1) where indicated.
-/

/-- An IEEE-754 binary64 value, embedded as its 64-bit pattern. -/
abbrev F64 := Nat

/-! ## Byte codec (src/lib.rs lines 61-80) -/

/-- Little-endian byte decomposition, as produced by `f64::to_le_bytes`
on the bit pattern: least-significant byte first. -/
def natToLEBytes : Nat → Nat → List Nat
  | _, 0 => []
  | x, Nat.succ n => x % 256 :: natToLEBytes (x / 256) n

/-- Little-endian byte recomposition, as performed by `f64::from_le_bytes`. -/
def leBytesToNat : List Nat → Nat
  | [] => 0
  | b :: rest => b + 256 * leBytesToNat rest

/-- The plain 3-vector (`struct Vec3`), components as binary64 bit patterns. -/
structure Vec3 where
  x : F64
  y : F64
  z : F64
deriving DecidableEq, Repr

/-- `Vec3::ZERO` (the bit pattern of `0.0` is `0`). -/
def Vec3.ZERO : Vec3 := ⟨0, 0, 0⟩

/-- `Vec3::to_le_bytes`: 24 bytes, `buf[0..8] = x`, `buf[8..16] = y`,
`buf[16..24] = z`, each little-endian. -/
def Vec3.to_le_bytes (v : Vec3) : List Nat :=
  natToLEBytes v.x 8 ++ natToLEBytes v.y 8 ++ natToLEBytes v.z 8

/-- Models `<&[u8] as TryInto<[u8; 8]>>::try_into`: succeeds exactly when
the slice has length 8. -/
def tryInto8 (l : List Nat) : Option (List Nat) :=
  if l.length = 8 then some l else none

/-- `Vec3::from_le_bytes` with the `.unwrap()` panic branches made explicit:
`none` corresponds to a panic of one of the three `try_into().unwrap()`
calls. -/
def Vec3.from_le_bytes_checked (bytes : List Nat) : Option Vec3 :=
  match tryInto8 (bytes.take 8), tryInto8 ((bytes.drop 8).take 8),
        tryInto8 ((bytes.drop 16).take 8) with
  | some bx, some b2, some b3 =>
      some ⟨leBytesToNat bx, leBytesToNat b2, leBytesToNat b3⟩
  | _, _, _ => none

/-- `Vec3::from_le_bytes` (total form; the checked form is proved to
succeed on every 24-byte buffer). -/
def Vec3.from_le_bytes (bytes : List Nat) : Vec3 :=
  (Vec3.from_le_bytes_checked bytes).getD ⟨0, 0, 0⟩

/-! ## Exact rational arithmetic, kernel-computable

`ℚ`'s operations normalize through `Nat.gcd`-based machinery that the
kernel does not reduce, so the model carries exact rationals as
unreduced fractions with a positive denominator.  All operations below
are exact; no rounding happens outside `roundPos`. -/

/-- `2 ^ n` on `Nat` via the accelerated shift. -/
def pow2 (n : Nat) : Nat := 1 <<< n

/-- An exact rational as an unreduced fraction; `den` is positive for
every value built by the operations below. -/
structure Frac where
  num : ℤ
  den : ℤ
deriving DecidableEq, Repr

/-- The fraction `n / 1`. -/
def Frac.ofInt (n : ℤ) : Frac := ⟨n, 1⟩

/-- Exact addition of fractions. -/
def Frac.add (a b : Frac) : Frac := ⟨a.num * b.den + b.num * a.den, a.den * b.den⟩

/-- Exact multiplication of fractions. -/
def Frac.mul (a b : Frac) : Frac := ⟨a.num * b.num, a.den * b.den⟩

/-- Exact negation. -/
def Frac.neg (a : Frac) : Frac := ⟨-a.num, a.den⟩

/-- Exact subtraction. -/
def Frac.sub (a b : Frac) : Frac := a.add b.neg

/-- `a ≤ b` by cross multiplication (denominators are positive). -/
def Frac.le (a b : Frac) : Bool := a.num * b.den ≤ b.num * a.den

/-- `a < b` by cross multiplication (denominators are positive). -/
def Frac.lt (a b : Frac) : Bool := a.num * b.den < b.num * a.den

/-- Absolute value. -/
def Frac.abs (a : Frac) : Frac := ⟨|a.num|, a.den⟩

/-- `⌊a⌋`, via floor division (the denominator is positive). -/
def Frac.floor (a : Frac) : ℤ := Int.fdiv a.num a.den

/-- The dyadic value `m * 2 ^ e` as a fraction. -/
def dyadic (m : ℤ) (e : ℤ) : Frac :=
  if 0 ≤ e then ⟨m * (pow2 e.toNat : ℤ), 1⟩ else ⟨m, (pow2 (-e).toNat : ℤ)⟩

/-- Integer maximum (spelled out so the kernel reduces it). -/
def maxZ (a b : ℤ) : ℤ := if a ≤ b then b else a

/-- `⌊Nat.log2 n⌋` for `n < 2 ^ 64`, by 64 halving steps. -/
def log2Small : Nat → Nat → Nat
  | 0, _ => 0
  | fuel + 1, n => if n ≤ 1 then 0 else 1 + log2Small fuel (n / 2)

/-- `⌊log2 n⌋` for `n ≥ 1` (0 at 0): peel 64-bit chunks, then finish
with `log2Small`; total recursion depth stays small enough for kernel
reduction.  Correct for every `n < 2 ^ 4096`, far beyond any number the
model builds. -/
def natLog2 : Nat → Nat → Nat
  | 0, _ => 0
  | fuel + 1, n =>
      if n < 18446744073709551616 then log2Small 64 n
      else 64 + natLog2 fuel (n / 18446744073709551616)

/-! ## IEEE-754 binary64 arithmetic model -/

/-- Sign bit of a binary64 pattern (1 means negative). -/
def signBit (a : F64) : Nat := a / pow2 63 % 2

/-- Biased exponent field (11 bits). -/
def expField (a : F64) : Nat := a / pow2 52 % pow2 11

/-- Fraction field (52 bits). -/
def fracField (a : F64) : Nat := a % pow2 52

/-- The value class of a binary64 pattern: NaN, a signed infinity
(`true` = negative), or a finite value given as an exact rational. -/
inductive FVal where
  | nan : FVal
  | inf : Bool → FVal
  | finite : Frac → FVal
deriving DecidableEq, Repr

/-- Decode a binary64 bit pattern to its value class:
exponent field 2047 is NaN/infinity, 0 is subnormal
(`frac * 2 ^ (-1074)`), otherwise `(2 ^ 52 + frac) * 2 ^ (exp - 1075)`. -/
def decode (a : F64) : FVal :=
  if expField a = 2047 then
    if fracField a = 0 then .inf (signBit a = 1) else .nan
  else
    let mag : Frac :=
      if expField a = 0 then dyadic (fracField a) (-1074)
      else dyadic ((pow2 52 + fracField a : Nat) : ℤ) ((expField a : ℤ) - 1075)
    .finite (if signBit a = 1 then mag.neg else mag)

/-- The canonical quiet-NaN pattern. -/
def qnanPattern : F64 := 2047 * pow2 52 + pow2 51

/-- The infinity pattern of the given sign (`true` = negative). -/
def infPattern (neg : Bool) : F64 :=
  (if neg then pow2 63 else 0) + 2047 * pow2 52

/-- Largest `e` with `2 ^ e ≤ a`, for a positive fraction `a`:
`log2 num - log2 den` is off by at most one, fixed up by one exact
comparison. -/
def floorLog2 (a : Frac) : ℤ :=
  let e0 : ℤ := (natLog2 64 a.num.natAbs : ℤ) - (natLog2 64 a.den.natAbs : ℤ)
  if (dyadic 1 e0).le a then e0 else e0 - 1

/-- Round a positive fraction to binary64, nearest ties-to-even, giving
the resulting bit pattern (the positive-infinity pattern on overflow):
scale into the integer significand range for the value's binade (clamped
at the subnormal precision `2 ^ (-1074)`), round the scaled value to an
integer with ties to even, re-normalize a carry, then assemble the
pattern. -/
def roundPos (a : Frac) : F64 :=
  let e := floorLog2 a
  let p : ℤ := maxZ (e - 52) (-1074)
  let x : Frac := a.mul (dyadic 1 (-p))
  let m0 : ℤ := x.floor
  let fr : Frac := x.sub (Frac.ofInt m0)
  let m : ℤ :=
    if fr.lt ⟨1, 2⟩ then m0
    else if Frac.lt ⟨1, 2⟩ fr then m0 + 1
    else if m0 % 2 = 0 then m0 else m0 + 1
  let mn : Nat := m.toNat
  if p = -1074 ∧ mn < pow2 52 then mn
  else
    let mp : Nat × ℤ := if mn = pow2 53 then (pow2 52, p + 1) else (mn, p)
    if 2047 ≤ mp.2 + 1075 then infPattern false
    else (mp.2 + 1075).toNat * pow2 52 + (mp.1 - pow2 52)

/-- Round any fraction to binary64 nearest-even (exact zero goes to `+0`;
the arithmetic operations handle IEEE signed-zero rules themselves). -/
def roundRat (q : Frac) : F64 :=
  if q.num = 0 then 0
  else if 0 < q.num then roundPos q
  else pow2 63 + roundPos q.neg

/-- IEEE-754 negation: flip the sign bit. -/
def fneg (a : F64) : F64 := if a < pow2 63 then a + pow2 63 else a - pow2 63

/-- IEEE-754 absolute value: clear the sign bit. -/
def fabs (a : F64) : F64 := a % pow2 63

/-- IEEE-754 binary64 addition (round to nearest, ties to even).  An exact
zero sum is `-0` exactly when both operands carry the sign bit, per the
IEEE signed-zero rules for this rounding direction. -/
def fadd (a b : F64) : F64 :=
  match decode a, decode b with
  | .nan, _ => qnanPattern
  | _, .nan => qnanPattern
  | .inf sa, .inf sb => if sa = sb then infPattern sa else qnanPattern
  | .inf sa, .finite _ => infPattern sa
  | .finite _, .inf sb => infPattern sb
  | .finite qa, .finite qb =>
      if (qa.add qb).num = 0 then
        if signBit a = 1 ∧ signBit b = 1 then pow2 63 else 0
      else roundRat (qa.add qb)

/-- IEEE-754 binary64 subtraction: `a - b = a + (-b)` exactly. -/
def fsub (a b : F64) : F64 := fadd a (fneg b)

/-- IEEE-754 binary64 multiplication (round to nearest, ties to even);
the result sign is the XOR of the operand signs, also for zero results. -/
def fmul (a b : F64) : F64 :=
  let s : Nat := if signBit a = signBit b then 0 else 1
  match decode a, decode b with
  | .nan, _ => qnanPattern
  | _, .nan => qnanPattern
  | .inf _, .inf _ => infPattern (s = 1)
  | .inf _, .finite q => if q.num = 0 then qnanPattern else infPattern (s = 1)
  | .finite q, .inf _ => if q.num = 0 then qnanPattern else infPattern (s = 1)
  | .finite qa, .finite qb =>
      if (qa.mul qb).num = 0 then s * pow2 63
      else roundRat (qa.mul qb)

/-- IEEE-754 `>=` comparison (false whenever an operand is NaN). -/
def fge (a b : F64) : Bool :=
  match decode a, decode b with
  | .nan, _ => false
  | _, .nan => false
  | .inf sa, .inf sb => !sa || sb
  | .inf sa, .finite _ => !sa
  | .finite _, .inf sb => sb
  | .finite qa, .finite qb => qb.le qa

/-- `Vec3::scale` (src/lib.rs lines 102-108): plain componentwise
multiplication. -/
def Vec3.scale (v : Vec3) (scalar : F64) : Vec3 :=
  ⟨fmul v.x scalar, fmul v.y scalar, fmul v.z scalar⟩

/-! ## Compensated scalar accumulator (`drift_kernel::Neumaier`) -/

/-- Modelled from the spec: the `drift_kernel::Neumaier` compensated scalar
accumulator (spec section 4.1); the `drift-kernel` crate's source is not
part of this repository.  Two binary64 fields: the running total `sum`
and the running compensation term `correction`. -/
structure Neumaier where
  sum : F64
  correction : F64
deriving DecidableEq, Repr

/-- Modelled from the spec: `Neumaier::new(initial)` seeds
`sum = initial`, `correction = 0`. -/
def Neumaier.new (initial : F64) : Neumaier := ⟨initial, 0⟩

/-- Modelled from the spec: `Neumaier::add(value)` — compute
`t = sum + value`; if `|sum| >= |value|` then
`correction += (sum - t) + value` else `correction += (value - t) + sum`;
finally `sum = t`. -/
def Neumaier.add (acc : Neumaier) (value : F64) : Neumaier :=
  let t := fadd acc.sum value
  let c :=
    if fge (fabs acc.sum) (fabs value) then
      fadd acc.correction (fadd (fsub acc.sum t) value)
    else
      fadd acc.correction (fadd (fsub value t) acc.sum)
  ⟨t, c⟩

/-- Modelled from the spec: `Neumaier::total()` returns
`sum + correction`, a non-mutating read. -/
def Neumaier.total (acc : Neumaier) : F64 := fadd acc.sum acc.correction

/-- Modelled from the spec: `Neumaier::reset()` zeroes both fields. -/
def Neumaier.reset (_acc : Neumaier) : Neumaier := ⟨0, 0⟩

/-! ## Vector accumulator (src/lib.rs lines 171-250) -/

/-- `struct Vec3Accumulator`: one `Neumaier` per axis. -/
structure Vec3Accumulator where
  x : Neumaier
  y : Neumaier
  z : Neumaier
deriving DecidableEq, Repr

/-- `Vec3Accumulator::new` = `Self::default()`: three `Neumaier::new(0.0)`. -/
def Vec3Accumulator.new : Vec3Accumulator :=
  ⟨Neumaier.new 0, Neumaier.new 0, Neumaier.new 0⟩

/-- `Vec3Accumulator::with_initial`. -/
def Vec3Accumulator.with_initial (initial : Vec3) : Vec3Accumulator :=
  ⟨Neumaier.new initial.x, Neumaier.new initial.y, Neumaier.new initial.z⟩

/-- `Vec3Accumulator::add`: the scalar `add` on each axis with the
matching component. -/
def Vec3Accumulator.add (acc : Vec3Accumulator) (vec : Vec3) : Vec3Accumulator :=
  ⟨acc.x.add vec.x, acc.y.add vec.y, acc.z.add vec.z⟩

/-- `Vec3Accumulator::add_scaled`: the scalar `add` on each axis with
`component * scalar`; the multiplication is the plain `fmul`. -/
def Vec3Accumulator.add_scaled (acc : Vec3Accumulator) (vec : Vec3) (scalar : F64) :
    Vec3Accumulator :=
  ⟨acc.x.add (fmul vec.x scalar), acc.y.add (fmul vec.y scalar),
   acc.z.add (fmul vec.z scalar)⟩

/-- `Vec3Accumulator::resolve`: a `Vec3` of the three `total()`s. -/
def Vec3Accumulator.resolve (acc : Vec3Accumulator) : Vec3 :=
  ⟨acc.x.total, acc.y.total, acc.z.total⟩

/-- `Vec3Accumulator::reset`: reset each axis accumulator. -/
def Vec3Accumulator.reset (acc : Vec3Accumulator) : Vec3Accumulator :=
  ⟨acc.x.reset, acc.y.reset, acc.z.reset⟩

/-- `fn resolve(&self) -> Vec3` as a state transformer: the receiver is an
immutable shared borrow (and `Vec3Accumulator` has no interior
mutability), so the call returns its result together with the receiver's
state, unchanged. -/
def Vec3Accumulator.resolveCall (acc : Vec3Accumulator) : Vec3 × Vec3Accumulator :=
  (acc.resolve, acc)

/-! ## Operation sequences -/

/-- A mutating call on a `Vec3Accumulator`. -/
inductive VOp where
  | addVec : Vec3 → VOp
  | addScaledVec : Vec3 → F64 → VOp
  | resetOp : VOp

/-- Interpret one vector-accumulator call. -/
def stepV (acc : Vec3Accumulator) : VOp → Vec3Accumulator
  | .addVec v => acc.add v
  | .addScaledVec v s => acc.add_scaled v s
  | .resetOp => acc.reset

/-- A mutating call on a scalar `Neumaier` accumulator. -/
inductive SOp where
  | addScalar : F64 → SOp
  | resetScalar : SOp

/-- Interpret one scalar-accumulator call. -/
def stepS (acc : Neumaier) : SOp → Neumaier
  | .addScalar v => acc.add v
  | .resetScalar => acc.reset

/-- The x-axis scalar input of a vector operation. -/
def VOp.projX : VOp → SOp
  | .addVec v => .addScalar v.x
  | .addScaledVec v s => .addScalar (fmul v.x s)
  | .resetOp => .resetScalar

/-- The y-axis scalar input of a vector operation. -/
def VOp.projY : VOp → SOp
  | .addVec v => .addScalar v.y
  | .addScaledVec v s => .addScalar (fmul v.y s)
  | .resetOp => .resetScalar

/-- The z-axis scalar input of a vector operation. -/
def VOp.projZ : VOp → SOp
  | .addVec v => .addScalar v.z
  | .addScaledVec v s => .addScalar (fmul v.z s)
  | .resetOp => .resetScalar

/-- Run a sequence of vector-accumulator calls. -/
def runV (acc : Vec3Accumulator) (ops : List VOp) : Vec3Accumulator :=
  ops.foldl stepV acc

/-- Run a sequence of scalar-accumulator calls. -/
def runS (acc : Neumaier) (ops : List SOp) : Neumaier :=
  ops.foldl stepS acc

/-! ## Spec-side definitions for refinement claims -/

/-- The scalar add policy exactly as the spec words it (section 4.1,
steps 1-3): `t = sum + value`; if `|sum| >= |value|` then
`correction += (sum − t) + value` else `correction += (value − t) + sum`;
then `sum = t`.  Returns the `(sum, correction)` pair. -/
def specNeumaierPolicy (sum correction value : F64) : F64 × F64 :=
  let t := fadd sum value
  if fge (fabs sum) (fabs value) then
    (t, fadd correction (fadd (fsub sum t) value))
  else
    (t, fadd correction (fadd (fsub value t) sum))

/-- The bit pattern of an integer float literal (rounded nearest-even,
which is exact for representable literals such as `1e16`). -/
def lit (n : ℤ) : F64 := roundRat (Frac.ofInt n)

/-- `true` iff the pattern is finite and within `eps` of `target`. -/
def withinOf (a : F64) (target eps : Frac) : Bool :=
  match decode a with
  | .finite q => ((q.sub target).abs).le eps
  | _ => false

/-- The resolved result of the catastrophic-cancellation sequence:
add `(1e16, 1e16, 1e16)`, then `(1, 1, 1)`, then `(-1e16, -1e16, -1e16)`
to a fresh accumulator, and resolve. -/
def cancellationResolved : Vec3 :=
  (((Vec3Accumulator.new.add
      ⟨lit 10000000000000000, lit 10000000000000000, lit 10000000000000000⟩).add
      ⟨lit 1, lit 1, lit 1⟩).add
      ⟨lit (-10000000000000000), lit (-10000000000000000),
       lit (-10000000000000000)⟩).resolve

/-! ## Helper lemmas -/

theorem natToLEBytes_length (x n : Nat) : (natToLEBytes x n).length = n := by
  induction n generalizing x with
  | zero => rfl
  | succ n ih => simp [natToLEBytes, ih]

theorem leBytesToNat_natToLEBytes (x : Nat) (h : x < 2 ^ 64) :
    leBytesToNat (natToLEBytes x 8) = x := by
  simp only [natToLEBytes, leBytesToNat]
  omega

theorem natToLEBytes_leBytesToNat (l : List Nat) (hlen : l.length = 8)
    (hb : ∀ b ∈ l, b < 256) :
    natToLEBytes (leBytesToNat l) 8 = l := by
  match l, hlen with
  | [b0, b1, b2, b3, b4, b5, b6, b7], _ =>
    simp only [List.mem_cons, forall_eq_or_imp] at hb
    simp only [natToLEBytes, leBytesToNat, List.cons.injEq, and_true]
    omega

theorem to_le_bytes_take8 (v : Vec3) :
    (v.to_le_bytes).take 8 = natToLEBytes v.x 8 := by
  rw [Vec3.to_le_bytes, List.append_assoc,
      List.take_left' (natToLEBytes_length v.x 8)]

theorem to_le_bytes_mid8 (v : Vec3) :
    ((v.to_le_bytes).drop 8).take 8 = natToLEBytes v.y 8 := by
  rw [Vec3.to_le_bytes, List.append_assoc,
      List.drop_left' (natToLEBytes_length v.x 8),
      List.take_left' (natToLEBytes_length v.y 8)]

theorem to_le_bytes_last8 (v : Vec3) :
    ((v.to_le_bytes).drop 16).take 8 = natToLEBytes v.z 8 := by
  have hxy : (natToLEBytes v.x 8 ++ natToLEBytes v.y 8).length = 16 := by
    simp [natToLEBytes_length]
  rw [Vec3.to_le_bytes, List.drop_left' hxy]
  exact List.take_of_length_le (le_of_eq (natToLEBytes_length v.z 8))

theorem to_le_bytes_length (v : Vec3) : (v.to_le_bytes).length = 24 := by
  simp [Vec3.to_le_bytes, natToLEBytes_length]

theorem from_le_bytes_checked_eq (bytes : List Nat) (h : bytes.length = 24) :
    Vec3.from_le_bytes_checked bytes =
      some ⟨leBytesToNat (bytes.take 8), leBytesToNat ((bytes.drop 8).take 8),
            leBytesToNat ((bytes.drop 16).take 8)⟩ := by
  have h1 : (bytes.take 8).length = 8 := by simp [h]
  have h2 : ((bytes.drop 8).take 8).length = 8 := by simp [h]
  have h3 : ((bytes.drop 16).take 8).length = 8 := by simp [h]
  simp [Vec3.from_le_bytes_checked, tryInto8, h1, h2, h3]

theorem natToLEBytes_getD (x : Nat) (i : Fin 8) :
    (natToLEBytes x 8).getD (i : Nat) 0 = x / 256 ^ (i : Nat) % 256 := by
  fin_cases i <;> simp [natToLEBytes, List.getD, Nat.div_div_eq_div_mul]

/-- The scalar `add` agrees with the spec's policy, componentwise. -/
theorem neumaier_add_eq_policy (sc : Neumaier) (value : F64) :
    (sc.add value).sum = (specNeumaierPolicy sc.sum sc.correction value).1 ∧
    (sc.add value).correction = (specNeumaierPolicy sc.sum sc.correction value).2 := by
  simp only [Neumaier.add, specNeumaierPolicy]
  split <;> exact ⟨rfl, rfl⟩

/-- Per-axis projection of a run of vector-accumulator operations. -/
theorem runV_proj (ops : List VOp) (acc : Vec3Accumulator) :
    (runV acc ops).x = runS acc.x (ops.map VOp.projX) ∧
    (runV acc ops).y = runS acc.y (ops.map VOp.projY) ∧
    (runV acc ops).z = runS acc.z (ops.map VOp.projZ) := by
  induction ops generalizing acc with
  | nil => exact ⟨rfl, rfl, rfl⟩
  | cons op ops ih => cases op <;> exact ih _

/-! ## Claim theorems -/

/-- Claim C1: for every `Vec3` whose components are 64-bit patterns
(including NaN and infinity patterns), `from_le_bytes (to_le_bytes v)`
is `v` bit-for-bit in every component. -/
theorem vec3_bytes_decode_encode_id (v : Vec3)
    (hx : v.x < 2 ^ 64) (hy : v.y < 2 ^ 64) (hz : v.z < 2 ^ 64) :
    Vec3.from_le_bytes v.to_le_bytes = v := by
  rw [Vec3.from_le_bytes, from_le_bytes_checked_eq _ (to_le_bytes_length v),
      Option.getD_some, to_le_bytes_take8, to_le_bytes_mid8, to_le_bytes_last8,
      leBytesToNat_natToLEBytes _ hx, leBytesToNat_natToLEBytes _ hy,
      leBytesToNat_natToLEBytes _ hz]

/-- Witness for C1, at a vector holding a NaN pattern, the negative
infinity pattern and the negative-zero pattern. -/
theorem vec3_bytes_decode_encode_id_witness :
    qnanPattern < 2 ^ 64 ∧ infPattern true < 2 ^ 64 ∧ pow2 63 < 2 ^ 64 ∧
    Vec3.from_le_bytes (Vec3.to_le_bytes ⟨qnanPattern, infPattern true, pow2 63⟩) =
      ⟨qnanPattern, infPattern true, pow2 63⟩ :=
  ⟨by decide, by decide, by decide,
   vec3_bytes_decode_encode_id ⟨qnanPattern, infPattern true, pow2 63⟩
     (by decide) (by decide) (by decide)⟩

/-- Claim C2: on every accumulator state and every vector, the vector
`add` updates each axis exactly by the spec's Neumaier policy
(`t = sum + value`; if `|sum| >= |value|` then
`correction += (sum - t) + value` else `correction += (value - t) + sum`;
then `sum = t`). -/
theorem vec3_add_follows_neumaier_policy (acc : Vec3Accumulator) (vec : Vec3) :
    ((acc.add vec).x.sum = (specNeumaierPolicy acc.x.sum acc.x.correction vec.x).1 ∧
     (acc.add vec).x.correction = (specNeumaierPolicy acc.x.sum acc.x.correction vec.x).2) ∧
    ((acc.add vec).y.sum = (specNeumaierPolicy acc.y.sum acc.y.correction vec.y).1 ∧
     (acc.add vec).y.correction = (specNeumaierPolicy acc.y.sum acc.y.correction vec.y).2) ∧
    ((acc.add vec).z.sum = (specNeumaierPolicy acc.z.sum acc.z.correction vec.z).1 ∧
     (acc.add vec).z.correction = (specNeumaierPolicy acc.z.sum acc.z.correction vec.z).2) :=
  ⟨neumaier_add_eq_policy acc.x vec.x, neumaier_add_eq_policy acc.y vec.y,
   neumaier_add_eq_policy acc.z vec.z⟩

/-- Claim C3: `add_scaled(v, s)` leaves the accumulator in exactly the
state of `add(v.scale(s))`, and on each axis it adds the plain
(non-compensated) product `fmul component s`. -/
theorem add_scaled_eq_add_of_scale (acc : Vec3Accumulator) (vec : Vec3) (scalar : F64) :
    acc.add_scaled vec scalar = acc.add (vec.scale scalar) ∧
    (acc.add_scaled vec scalar).x = acc.x.add (fmul vec.x scalar) ∧
    (acc.add_scaled vec scalar).y = acc.y.add (fmul vec.y scalar) ∧
    (acc.add_scaled vec scalar).z = acc.z.add (fmul vec.z scalar) :=
  ⟨rfl, rfl, rfl, rfl⟩

set_option maxRecDepth 10000 in
/-- Claim C4: adding `(1e16, 1e16, 1e16)`, `(1, 1, 1)`,
`(-1e16, -1e16, -1e16)` to a fresh accumulator and resolving gives a
value within `1e-10` of 1 on every axis. -/
theorem catastrophic_cancellation_resolves_to_one :
    withinOf cancellationResolved.x (Frac.ofInt 1) ⟨1, 10000000000⟩ = true ∧
    withinOf cancellationResolved.y (Frac.ofInt 1) ⟨1, 10000000000⟩ = true ∧
    withinOf cancellationResolved.z (Frac.ofInt 1) ⟨1, 10000000000⟩ = true := by
  decide

/-- Claim C5: for every sequence of `add` / `add_scaled` / `reset` calls,
each axis of the resolved vector equals a lone scalar accumulator run on
that axis's scalar inputs — no cross-axis coupling. -/
theorem axis_isolation_resolve (ops : List VOp) (acc : Vec3Accumulator) :
    (runV acc ops).resolve =
      ⟨(runS acc.x (ops.map VOp.projX)).total,
       (runS acc.y (ops.map VOp.projY)).total,
       (runS acc.z (ops.map VOp.projZ)).total⟩ := by
  obtain ⟨h1, h2, h3⟩ := runV_proj ops acc
  rw [Vec3Accumulator.resolve, h1, h2, h3]

/-- Claim C6: `to_le_bytes` yields exactly 24 bytes; byte `i` is byte `i`
of the little-endian encoding of `x` for `i < 8`, of `y` for bytes
`8..16`, of `z` for bytes `16..24`. -/
theorem to_le_bytes_layout (v : Vec3) :
    (v.to_le_bytes).length = 24 ∧
    (∀ i : Fin 8, (v.to_le_bytes).getD (i : Nat) 0 = v.x / 256 ^ (i : Nat) % 256) ∧
    (∀ i : Fin 8, (v.to_le_bytes).getD (8 + (i : Nat)) 0 = v.y / 256 ^ (i : Nat) % 256) ∧
    (∀ i : Fin 8, (v.to_le_bytes).getD (16 + (i : Nat)) 0 = v.z / 256 ^ (i : Nat) % 256) := by
  refine ⟨to_le_bytes_length v, fun i => ?_, fun i => ?_, fun i => ?_⟩
  · rw [Vec3.to_le_bytes, List.append_assoc,
        List.getD_append _ _ _ _ (by rw [natToLEBytes_length]; exact i.isLt),
        natToLEBytes_getD]
  · rw [Vec3.to_le_bytes, List.append_assoc,
        List.getD_append_right _ _ _ _ (by rw [natToLEBytes_length]; omega),
        natToLEBytes_length]
    have h8 : 8 + (i : Nat) - 8 = (i : Nat) := by omega
    rw [h8, List.getD_append _ _ _ _ (by rw [natToLEBytes_length]; exact i.isLt),
        natToLEBytes_getD]
  · rw [Vec3.to_le_bytes,
        List.getD_append_right _ _ _ _ (by simp [natToLEBytes_length]),
        List.length_append, natToLEBytes_length, natToLEBytes_length]
    have h16 : 16 + (i : Nat) - (8 + 8) = (i : Nat) := by omega
    rw [h16, natToLEBytes_getD]

/-- Claim C7: `reset` puts the accumulator in exactly the freshly
constructed zero state: the state equals `new()`, `resolve` returns the
zero vector, and every subsequent call sequence behaves as from
`new()`. -/
theorem reset_restores_fresh_state (acc : Vec3Accumulator) :
    acc.reset = Vec3Accumulator.new ∧
    (acc.reset).resolve = Vec3.ZERO ∧
    ∀ ops : List VOp, runV acc.reset ops = runV Vec3Accumulator.new ops :=
  ⟨rfl, (by decide : Vec3Accumulator.new.resolve = Vec3.ZERO), fun _ => rfl⟩

/-- Claim C8: `resolve` does not modify the accumulator: the post-call
state equals the pre-call state, consecutive calls return equal values,
and subsequent operation sequences behave as if `resolve` had never been
called. -/
theorem resolve_is_non_mutating (acc : Vec3Accumulator) :
    (acc.resolveCall).2 = acc ∧
    ((acc.resolveCall).2.resolveCall).1 = (acc.resolveCall).1 ∧
    ∀ ops : List VOp, runV (acc.resolveCall).2 ops = runV acc ops :=
  ⟨rfl, rfl, fun _ => rfl⟩

/-- Claim C9: on every 24-byte buffer, decoding totally succeeds — the
checked decoder (whose `none` is the `try_into().unwrap()` panic) always
returns `some`, and agrees with `from_le_bytes`. -/
theorem from_le_bytes_total_on_24_bytes (bytes : List Nat) (h : bytes.length = 24) :
    Vec3.from_le_bytes_checked bytes = some (Vec3.from_le_bytes bytes) := by
  rw [Vec3.from_le_bytes, from_le_bytes_checked_eq _ h, Option.getD_some]

/-- Witness for C9, at the all-zero 24-byte buffer. -/
theorem from_le_bytes_total_on_24_bytes_witness :
    (List.replicate 24 0).length = 24 ∧
    Vec3.from_le_bytes_checked (List.replicate 24 0) =
      some (Vec3.from_le_bytes (List.replicate 24 0)) :=
  ⟨by decide, from_le_bytes_total_on_24_bytes (List.replicate 24 0) (by decide)⟩

/-- Claim C10: for every 24-byte buffer, `to_le_bytes (from_le_bytes b)`
is `b` byte-for-byte, so the codec is a bijection between 24-byte
buffers and `Vec3` bit patterns. -/
theorem bytes_encode_decode_id (bytes : List Nat) (hlen : bytes.length = 24)
    (hb : ∀ b ∈ bytes, b < 256) :
    Vec3.to_le_bytes (Vec3.from_le_bytes bytes) = bytes := by
  rw [Vec3.from_le_bytes, from_le_bytes_checked_eq _ hlen, Option.getD_some]
  show natToLEBytes (leBytesToNat (bytes.take 8)) 8 ++
      natToLEBytes (leBytesToNat ((bytes.drop 8).take 8)) 8 ++
      natToLEBytes (leBytesToNat ((bytes.drop 16).take 8)) 8 = bytes
  rw [natToLEBytes_leBytesToNat _ (by simp [hlen])
        (fun b hb' => hb b (List.mem_of_mem_take hb')),
      natToLEBytes_leBytesToNat _ (by simp [hlen])
        (fun b hb' => hb b (List.mem_of_mem_drop (List.mem_of_mem_take hb'))),
      natToLEBytes_leBytesToNat _ (by simp [hlen])
        (fun b hb' => hb b (List.mem_of_mem_drop (List.mem_of_mem_take hb')))]
  have h16le : (bytes.drop 16).length ≤ 8 := by simp [hlen]
  rw [List.take_of_length_le h16le,
      List.append_assoc,
      show bytes.drop 16 = bytes.drop (8 + 8) from rfl,
      List.drop_take_append_drop, List.take_append_drop]

/-- Witness for C10, at the buffer `[0, 1, ..., 23]`. -/
theorem bytes_encode_decode_id_witness :
    (List.range 24).length = 24 ∧ (∀ b ∈ List.range 24, b < 256) ∧
    Vec3.to_le_bytes (Vec3.from_le_bytes (List.range 24)) = List.range 24 :=
  ⟨by decide, by decide,
   bytes_encode_decode_id (List.range 24) (by decide) (by decide)⟩
